import Mathlib

/-!
Shallow embedding of the two scripts of the `pixelscript` repository:
`scripts/build.py` (the artifact collector) and `scripts/test.py` (the
selective test runner).

Python strings are modelled as lists of characters (`Str`), Python
`str.split` with a one-character separator as `splitCh`, and the
filesystem as explicit directory listings.  File lines are modelled
without their terminating newline characters, and executing a shell
command (`os.system`) is modelled by recording the command string.
-/

set_option linter.unusedVariables false

abbrev Str := List Char

namespace PixelBuild

/-- Python `s.startswith(p)`, on character lists (`startswith s p`). -/
def startswith : Str → Str → Bool
  | _, [] => true
  | [], _ :: _ => false
  | c :: s, p :: ps => c == p && startswith s ps

/-- Python `s.endswith(suf)`, on character lists. -/
def endswith (s suf : Str) : Bool := startswith s.reverse suf.reverse

/-- Python `sub in s` (substring containment test): `strContains s sub`. -/
def strContains : Str → Str → Bool
  | [], sub => startswith [] sub
  | c :: rest, sub => startswith (c :: rest) sub || strContains rest sub

/-- Python `s.split(c)` for a single-character separator `c`. -/
def splitCh (c : Char) : Str → List Str
  | [] => [[]]
  | x :: xs =>
    if x == c then [] :: splitCh c xs
    else
      match splitCh c xs with
      | [] => [[x]]
      | y :: ys => (x :: y) :: ys

/-- `CRATE_NAME` from `scripts/build.py`. -/
def CRATE_NAME : Str := "pixelscript".toList

/-- `LIB_CRATES` from `scripts/build.py`. -/
def LIB_CRATES : List Str := ["mlua".toList, CRATE_NAME]

/-- `SOURCE` from `scripts/build.py`: the name of the destination directory. -/
def SOURCE : Str := "pxsb".toList

/-- `VALID_EXTENSIONS` from `scripts/build.py`. -/
def VALID_EXTENSIONS : List Str :=
  ["lib".toList, "a".toList, "so".toList, "dylib".toList]

/-- `convert_path` from `scripts/build.py`: replace every backslash by a
slash (`path.replace('\\', '/')` with a one-character pattern). -/
def convert_path (path : Str) : Str :=
  path.map (fun ch => if ch == '\\' then '/' else ch)

/-- `get_ext` from `scripts/build.py`: `path.split('.')[-1]`. -/
def get_ext (path : Str) : Str := (splitCh '.' path).getLastD []

/-- The destination file name computed by `move` in `scripts/build.py`:
after `old = convert_path(old)` it takes `ext = get_ext(old)` and
`file_name = old.split('.')[0].split('/')[-1]`, and copies `old` to
`f"{SOURCE}/{file_name}.{ext}"`.  This function returns that
destination base name `f"{file_name}.{ext}"`. -/
def move_dest (old : Str) : Str :=
  let o := convert_path old
  let ext := get_ext o
  let file_name := (splitCh '/' ((splitCh '.' o).headD [])).getLastD []
  file_name ++ '.' :: ext

/-- The basename of a slash-separated path: `p.split('/')[-1]`. -/
def basename (p : Str) : Str := (splitCh '/' p).getLastD []

/-- Whether a directory-entry name matches the glob pattern `*.{ext}`:
the name ends in `.ext` and, as Python's `glob` skips hidden entries,
does not start with a dot. -/
def globMatchExt (name ext : Str) : Bool :=
  endswith name ('.' :: ext) && !(startswith name ['.'])

/-- No slash-separated segment of the relative path is hidden
(dot-prefixed); Python's recursive glob does not descend into hidden
directories nor match hidden files. -/
def hiddenFree (relpath : Str) : Bool :=
  (splitCh '/' relpath).all (fun seg => !(startswith seg ['.']))

/-- Whether a file at relative path `relpath` below a folder is matched
by the recursive glob pattern `{folder}/**/*.{ext}`. -/
def globRecMatch (relpath ext : Str) : Bool :=
  hiddenFree relpath && endswith (basename relpath) ('.' :: ext)

/-- `collect_libs(folder, rule="/*")` from `scripts/build.py`, for a
folder whose direct children have the given names: for each extension
of `VALID_EXTENSIONS` in order, glob `{folder}/*.{ext}` and copy each
match.  Returns the source paths passed to `move`, in order. -/
def collect_libs_flat (folder : Str) (children : List Str) : List Str :=
  VALID_EXTENSIONS.flatMap (fun ext =>
    (children.filter (fun n => globMatchExt n ext)).map
      (fun n => folder ++ '/' :: n))

/-- `collect_libs(folder)` with the default rule `"/**/*"` from
`scripts/build.py`, for a folder containing files at the given relative
paths: for each extension in order, glob `{folder}/**/*.{ext}`
recursively and copy each match. -/
def collect_libs_rec (folder : Str) (files : List Str) : List Str :=
  VALID_EXTENSIONS.flatMap (fun ext =>
    (files.filter (fun p => globRecMatch p ext)).map
      (fun p => folder ++ '/' :: p))

/-- The source filesystem state read by a collection run (the state of
the cargo output directories when the copying part of the script runs).
`release` lists the names of the direct children of the release
directory (`none` when that directory is missing); `buildDirs` lists,
for each subdirectory of the build directory, its name and the relative
paths of the files below it (`none` when the build directory is
missing, in which case `os.listdir` raises `FileNotFoundError`). -/
structure FS where
  release : Option (List Str)
  buildDirs : Option (List (Str × List Str))
deriving DecidableEq

/-- The prior state of the destination directory `pxsb`:
absent, an existing directory with the given contents, or an existing
non-directory file. -/
inductive DestPrior
  | absent
  | dir (contents : List (Str × Str))
  | file
deriving DecidableEq

/-- Lines 82-85 of `scripts/build.py`:
`if source.exists() and source.is_dir(): shutil.rmtree(source)` followed
by `source.mkdir(exist_ok=True)`.  An existing directory is removed
wholesale and recreated empty; a missing path is created; an existing
non-directory file is not removed, and `mkdir` then raises
`FileExistsError`. -/
def clearDest : DestPrior → Except String (List (Str × Str))
  | DestPrior.absent => Except.ok []
  | DestPrior.dir _ => Except.ok []
  | DestPrior.file => Except.error "FileExistsError"

/-- The inner loop of lines 92-98 of `scripts/build.py` for one entry
`path` of `os.listdir(build_dir)`:
`for lib in LIB_CRATES: if path.startswith(lib): collect_libs(full_path)`
where `full_path = f"{build_dir}/{path}"`. -/
def collectBuildEntry (ptb : Str) (e : Str × List Str) : List Str :=
  LIB_CRATES.flatMap (fun lib =>
    if startswith e.1 lib then collect_libs_rec (ptb ++ '/' :: e.1) e.2
    else [])

/-- The sources copied from the release directory by
`collect_libs(path_to_release, rule="/*")`: a glob over a missing
directory matches nothing and raises no error. -/
def releaseCopies (ptr : Str) (rel : Option (List Str)) : List Str :=
  match rel with
  | none => []
  | some names => collect_libs_flat ptr names

/-- The outcome of the copying phase: the source paths copied (in
order) and the error, if any, raised during it. -/
structure RunResult where
  copies : List Str
  err : Option String
deriving DecidableEq

/-- Lines 88-98 of `scripts/build.py`: collect from the release
directory (direct children), then iterate `os.listdir(build_dir)` —
which raises `FileNotFoundError` when the build directory is missing,
after the release-level copies have already happened — and collect
recursively from each subdirectory whose name starts with a crate of
`LIB_CRATES`.  `ptr` and `ptb` are `path_to_release` and
`path_to_build` (lines 73-78; their value depends only on the target
argument). -/
def runCollection (ptr ptb : Str) (fs : FS) : RunResult :=
  let relCopies := releaseCopies ptr fs.release
  match fs.buildDirs with
  | none => ⟨relCopies, some "FileNotFoundError"⟩
  | some entries =>
      ⟨relCopies ++ entries.flatMap (collectBuildEntry ptb), none⟩

/-- The destination-directory contents produced by a list of copies:
each copied source `src` is stored under the name `move_dest src`, with
its contents identified by its source path. -/
def destOfCopies (copies : List Str) : List (Str × Str) :=
  copies.map (fun src => (move_dest src, src))

/-- The final state of one collection run: the destination directory's
contents (`none` when the destination could not be recreated) and the
error, if any, that aborted the script. -/
structure Outcome where
  dest : Option (List (Str × Str))
  err : Option String
deriving DecidableEq

/-- One full collection run of `scripts/build.py` after the cargo
invocation: clear and recreate the destination directory (lines 81-85),
then copy the collected artifacts into it (lines 88-98).  When the
copying phase raises, the destination keeps the copies made before the
error (the script has no rollback). -/
def runBuildScript (prior : DestPrior) (ptr ptb : Str) (fs : FS) : Outcome :=
  match clearDest prior with
  | Except.error e => ⟨none, some e⟩
  | Except.ok _ =>
      let r := runCollection ptr ptb fs
      ⟨some (destOfCopies r.copies), r.err⟩

/-- The result of the argument loop of `scripts/build.py`
(lines 48-61): the `target` flag string, the raw target triple
`rtarget`, and the accumulated `features` list. -/
structure ParsedArgs where
  target : Str
  rtarget : Str
  features : List Str
deriving DecidableEq

/-- One iteration of the argument loop (lines 53-61 of
`scripts/build.py`): `if "target" in arg:` set the target from
`arg.split("=")[-1]`; `elif "features" in arg:` append
`["--features", arg.split("=")[-1]]` to the features; otherwise ignore
the argument. -/
def parseStep (st : ParsedArgs) (arg : Str) : ParsedArgs :=
  if strContains arg "target".toList then
    let rt := (splitCh '=' arg).getLastD []
    { st with rtarget := rt, target := "--target=".toList ++ rt }
  else if strContains arg "features".toList then
    let fts := (splitCh '=' arg).getLastD []
    { st with features := st.features ++ ["--features".toList, fts] }
  else st

/-- The whole argument loop of `scripts/build.py`, starting from
`target = ""`, `rtarget = ""`, `features = ["--no-default-features"]`. -/
def parseArgs (argv : List Str) : ParsedArgs :=
  argv.foldl parseStep ⟨[], [], ["--no-default-features".toList]⟩

end PixelBuild

namespace PixelTest

open PixelBuild (startswith)

/-- A file of the `tests` directory: its entry name and its lines
(without their terminating newline characters). -/
structure TestFile where
  name : Str
  lines : List Str
deriving DecidableEq

/-- Lines 8-9 of `scripts/test.py`: the skip list is the argument list
with `"test_repl.rs"` appended. -/
def skipped_tests (argv : List Str) : List Str :=
  argv ++ ["test_repl.rs".toList]

/-- Bounded worker for `splitSeq`; the fuel dominates the length of the
string being split, so the fuel-exhausted branch is never reached in
`splitSeq`. -/
def splitSeqFuel (sep : Str) : Nat → Str → Str → List Str
  | 0, s, acc => [acc.reverse ++ s]
  | _ + 1, [], acc => [acc.reverse]
  | n + 1, c :: rest, acc =>
    if startswith (c :: rest) sep then
      acc.reverse :: splitSeqFuel sep n ((c :: rest).drop sep.length) []
    else
      splitSeqFuel sep n rest (c :: acc)

/-- Python `s.split(sep)` for a non-empty multi-character separator:
scan left to right, cutting at each non-overlapping occurrence of
`sep`.  Used for `line.split("// ")` in `scripts/test.py`. -/
def splitSeq (sep s : Str) : List Str :=
  splitSeqFuel sep (s.length + 1) s []

/-- The outcome of one run of `scripts/test.py`: the names of the test
files opened (in order), the shell commands passed to `os.system` (in
order), and the error, if any, that aborted the run. -/
structure RunOutcome where
  opened : List Str
  executed : List Str
  err : Option String
deriving DecidableEq

/-- The loop of lines 13-31 of `scripts/test.py` over the remaining
directory entries, with skip list `sk`: a listed name in `sk` is
skipped without being opened; otherwise the file is opened and
`f.readlines()[8]` is read — raising `IndexError`, which aborts the
whole run, when the file has fewer than 9 lines; a 9th line that does
not start with `"//"` skips the file; otherwise
`line.split("// ")[-1]` is executed via `os.system`. -/
def runFrom (sk : List Str) : List TestFile → RunOutcome
  | [] => ⟨[], [], none⟩
  | t :: rest =>
    if t.name ∈ sk then runFrom sk rest
    else
      match t.lines.get? 8 with
      | none => ⟨[t.name], [], some "IndexError"⟩
      | some line =>
        if startswith line "//".toList then
          let command := (splitSeq "// ".toList line).getLastD []
          let r := runFrom sk rest
          ⟨t.name :: r.opened, command :: r.executed, r.err⟩
        else
          let r := runFrom sk rest
          ⟨t.name :: r.opened, r.executed, r.err⟩

/-- One run of `scripts/test.py` on a `tests` directory listing
`tests`, invoked with arguments `argv`. -/
def runTests (tests : List TestFile) (argv : List Str) : RunOutcome :=
  runFrom (skipped_tests argv) tests

end PixelTest

namespace PixelBuild

theorem startswith_ex : ∀ (p s : Str), startswith s p = true → ∃ t, s = p ++ t := by
  intro p
  induction p with
  | nil => intro s _; exact ⟨s, rfl⟩
  | cons q ps ih =>
      intro s h
      cases s with
      | nil => simp [startswith] at h
      | cons c cs =>
          simp only [startswith, Bool.and_eq_true, beq_iff_eq] at h
          obtain ⟨t, ht⟩ := ih cs h.2
          exact ⟨t, by simp [h.1, ht]⟩

theorem startswith_append : ∀ (p t : Str), startswith (p ++ t) p = true := by
  intro p
  induction p with
  | nil => intro t; cases t <;> rfl
  | cons q ps ih => intro t; simp [startswith, ih]

theorem endswith_ex (s suf : Str) (h : endswith s suf = true) : ∃ t, s = t ++ suf := by
  obtain ⟨t, ht⟩ := startswith_ex suf.reverse s.reverse h
  refine ⟨t.reverse, ?_⟩
  have := congrArg List.reverse ht
  simpa [List.reverse_append] using this

theorem endswith_append (t suf : Str) : endswith (t ++ suf) suf = true := by
  unfold endswith
  rw [List.reverse_append]
  exact startswith_append suf.reverse t.reverse

theorem splitCh_cons (c x : Char) (xs : Str) :
    splitCh c (x :: xs) =
      if x == c then [] :: splitCh c xs
      else
        match splitCh c xs with
        | [] => [[x]]
        | y :: ys => (x :: y) :: ys := rfl

theorem splitCh_ne_nil (c : Char) (l : Str) : splitCh c l ≠ [] := by
  cases l with
  | nil => simp [splitCh]
  | cons x xs =>
      rw [splitCh_cons]
      by_cases h : (x == c) = true
      · simp [h]
      · simp only [Bool.not_eq_true] at h
        simp only [h]
        cases hs : splitCh c xs <;> simp

theorem splitCh_not_mem (c : Char) (l : Str) (h : c ∉ l) : splitCh c l = [l] := by
  induction l with
  | nil => rfl
  | cons x xs ih =>
      have hx : x ≠ c := fun hxc => h (hxc ▸ List.mem_cons_self x xs)
      have hxs : c ∉ xs := fun hm => h (List.mem_cons_of_mem x hm)
      rw [splitCh_cons]
      simp [beq_eq_false_iff_ne.mpr hx, ih hxs]

theorem splitCh_singleton (c : Char) : ∀ (l y : Str), splitCh c l = [y] → y = l := by
  intro l
  induction l with
  | nil => intro y h; simp [splitCh] at h; simp [h]
  | cons x xs ih =>
      intro y h
      rw [splitCh_cons] at h
      by_cases hx : (x == c) = true
      · simp only [hx, if_true] at h
        have := splitCh_ne_nil c xs
        simp at h
        exact absurd h.2 this
      · simp only [Bool.not_eq_true] at hx
        simp only [hx] at h
        cases hs : splitCh c xs with
        | nil => exact absurd hs (splitCh_ne_nil c xs)
        | cons z zs =>
            rw [hs] at h
            simp at h
            obtain ⟨h1, h2⟩ := h
            subst h2
            rw [ih z hs] at h1
            simp [h1]

theorem splitCh_append (c : Char) : ∀ (l₁ l₂ : Str),
    splitCh c (l₁ ++ c :: l₂) = splitCh c l₁ ++ splitCh c l₂ := by
  intro l₁ l₂
  induction l₁ with
  | nil =>
      show splitCh c (c :: l₂) = [[]] ++ splitCh c l₂
      rw [splitCh_cons]
      simp
  | cons x xs ih =>
      rw [List.cons_append, splitCh_cons, splitCh_cons, ih]
      by_cases hx : (x == c) = true
      · simp [hx]
      · simp only [Bool.not_eq_true] at hx
        simp only [hx]
        cases hs : splitCh c xs with
        | nil => exact absurd hs (splitCh_ne_nil c xs)
        | cons z zs => simp

theorem getLastD_irrel (l : List Str) (hl : l ≠ []) (a b : Str) :
    l.getLastD a = l.getLastD b := by
  cases l with
  | nil => exact absurd rfl hl
  | cons x xs => rw [List.getLastD_cons, List.getLastD_cons]

theorem getLastD_append (l₁ l₂ : List Str) (h : l₂ ≠ []) (d : Str) :
    (l₁ ++ l₂).getLastD d = l₂.getLastD d := by
  induction l₁ generalizing d with
  | nil => rfl
  | cons x xs ih =>
      rw [List.cons_append, List.getLastD_cons, ih x, getLastD_irrel l₂ h x d]

theorem get_ext_append (t ext : Str) (h : '.' ∉ ext) :
    get_ext (t ++ '.' :: ext) = ext := by
  unfold get_ext
  rw [splitCh_append, splitCh_not_mem '.' ext h,
    getLastD_append _ _ (by simp)]
  rfl

theorem basename_suffix : ∀ (p : Str), ∃ u, p = u ++ basename p := by
  intro p
  induction p with
  | nil => exact ⟨[], rfl⟩
  | cons x xs ih =>
      unfold basename at ih ⊢
      rw [splitCh_cons]
      by_cases hx : (x == '/') = true
      · rw [if_pos hx, List.getLastD_cons]
        obtain ⟨u, hu⟩ := ih
        exact ⟨x :: u, by rw [List.cons_append]; exact congrArg (x :: ·) hu⟩
      · rw [if_neg hx]
        cases hs : splitCh '/' xs with
        | nil => exact absurd hs (splitCh_ne_nil '/' xs)
        | cons z zs =>
            change ∃ u, x :: xs = u ++ ((x :: z) :: zs).getLastD []
            cases zs with
            | nil =>
                have hz := splitCh_singleton '/' xs z hs
                subst hz
                exact ⟨[], by simp⟩
            | cons w ws =>
                obtain ⟨u, hu⟩ := ih
                rw [hs, List.getLastD_cons] at hu
                rw [List.getLastD_cons,
                  getLastD_irrel (w :: ws) (by simp) (x :: z) z]
                exact ⟨x :: u, by rw [List.cons_append]; exact congrArg (x :: ·) hu⟩

theorem convert_path_fixed (l : Str) (h : '\\' ∉ l) : convert_path l = l := by
  induction l with
  | nil => rfl
  | cons x xs ih =>
      have hx : x ≠ '\\' := fun hxc => h (hxc ▸ List.mem_cons_self x xs)
      have hxs : '\\' ∉ xs := fun hm => h (List.mem_cons_of_mem x hm)
      show (if x == '\\' then '/' else x) :: convert_path xs = x :: xs
      rw [if_neg (by simp [hx]), ih hxs]

theorem convert_path_append (a b : Str) :
    convert_path (a ++ b) = convert_path a ++ convert_path b :=
  List.map_append _ a b

theorem valid_ext_chars (ext : Str) (h : ext ∈ VALID_EXTENSIONS) :
    '.' ∉ ext ∧ '\\' ∉ ext := by
  simp only [VALID_EXTENSIONS, List.mem_cons, List.not_mem_nil, or_false] at h
  rcases h with h | h | h | h <;> subst h <;> exact ⟨by decide, by decide⟩

theorem move_dest_shape (t ext : Str) (hdot : '.' ∉ ext) (hbs : '\\' ∉ ext) :
    ∃ fn, move_dest (t ++ '.' :: ext) = fn ++ '.' :: ext := by
  have hconv : convert_path (t ++ '.' :: ext) = convert_path t ++ '.' :: ext := by
    rw [convert_path_append]
    have : convert_path ('.' :: ext) = '.' :: ext :=
      convert_path_fixed ('.' :: ext) (by
        intro hm
        rcases List.mem_cons.mp hm with h | h
        · exact absurd h.symm (by decide)
        · exact hbs h)
    rw [this]
  have hext : get_ext (convert_path (t ++ '.' :: ext)) = ext := by
    rw [hconv]; exact get_ext_append (convert_path t) ext hdot
  refine ⟨(splitCh '/' ((splitCh '.' (convert_path (t ++ '.' :: ext))).headD [])).getLastD [], ?_⟩
  show (splitCh '/' ((splitCh '.' (convert_path (t ++ '.' :: ext))).headD [])).getLastD [] ++
      '.' :: get_ext (convert_path (t ++ '.' :: ext)) = _
  rw [hext]

theorem get_ext_move_dest (t ext : Str) (hdot : '.' ∉ ext) (hbs : '\\' ∉ ext) :
    get_ext (move_dest (t ++ '.' :: ext)) = ext ∧
    endswith (move_dest (t ++ '.' :: ext)) ('.' :: ext) = true := by
  obtain ⟨fn, hfn⟩ := move_dest_shape t ext hdot hbs
  rw [hfn]
  exact ⟨get_ext_append fn ext hdot, endswith_append fn ('.' :: ext)⟩

theorem collect_flat_shape (folder : Str) (children : List Str) (src : Str)
    (h : src ∈ collect_libs_flat folder children) :
    ∃ ext, ext ∈ VALID_EXTENSIONS ∧ ∃ t, src = t ++ '.' :: ext := by
  simp only [collect_libs_flat, List.mem_flatMap, List.mem_map, List.mem_filter] at h
  obtain ⟨ext, hext, n, ⟨hn, hmatch⟩, hsrc⟩ := h
  simp only [globMatchExt, Bool.and_eq_true] at hmatch
  obtain ⟨t, ht⟩ := endswith_ex n ('.' :: ext) hmatch.1
  refine ⟨ext, hext, folder ++ '/' :: t, ?_⟩
  rw [← hsrc, ht]
  simp

theorem collect_rec_shape (folder : Str) (files : List Str) (src : Str)
    (h : src ∈ collect_libs_rec folder files) :
    ∃ ext, ext ∈ VALID_EXTENSIONS ∧ ∃ t, src = t ++ '.' :: ext := by
  simp only [collect_libs_rec, List.mem_flatMap, List.mem_map, List.mem_filter] at h
  obtain ⟨ext, hext, p, ⟨hp, hmatch⟩, hsrc⟩ := h
  simp only [globRecMatch, Bool.and_eq_true] at hmatch
  obtain ⟨t, ht⟩ := endswith_ex (basename p) ('.' :: ext) hmatch.2
  obtain ⟨u, hu⟩ := basename_suffix p
  refine ⟨ext, hext, folder ++ '/' :: (u ++ t), ?_⟩
  rw [← hsrc, hu, ht]
  simp

theorem collectBuildEntry_shape (ptb : Str) (e : Str × List Str) (src : Str)
    (h : src ∈ collectBuildEntry ptb e) :
    ∃ ext, ext ∈ VALID_EXTENSIONS ∧ ∃ t, src = t ++ '.' :: ext := by
  simp only [collectBuildEntry, List.mem_flatMap] at h
  obtain ⟨lib, hlib, hmem⟩ := h
  by_cases hs : startswith e.1 lib = true
  · rw [if_pos hs] at hmem
    exact collect_rec_shape _ _ _ hmem
  · rw [if_neg hs] at hmem
    exact absurd hmem (List.not_mem_nil src)

theorem copies_shape (ptr ptb : Str) (fs : FS) (src : Str)
    (h : src ∈ (runCollection ptr ptb fs).copies) :
    ∃ ext, ext ∈ VALID_EXTENSIONS ∧ ∃ t, src = t ++ '.' :: ext := by
  have hrel : ∀ s, s ∈ releaseCopies ptr fs.release →
      ∃ ext, ext ∈ VALID_EXTENSIONS ∧ ∃ t, s = t ++ '.' :: ext := by
    intro s hm
    unfold releaseCopies at hm
    cases hfs : fs.release with
    | none => rw [hfs] at hm; exact absurd hm (List.not_mem_nil s)
    | some names => rw [hfs] at hm; exact collect_flat_shape ptr names s hm
  unfold runCollection at h
  cases hb : fs.buildDirs with
  | none => rw [hb] at h; exact hrel src h
  | some entries =>
      rw [hb] at h
      simp only [List.mem_append] at h
      rcases h with h | h
      · exact hrel src h
      · simp only [List.mem_flatMap] at h
        obtain ⟨e, he, hmem⟩ := h
        exact collectBuildEntry_shape ptb e src hmem

theorem dest_mem (p : DestPrior) (ptr ptb : Str) (fs : FS) (d : List (Str × Str))
    (name src : Str) (hd : (runBuildScript p ptr ptb fs).dest = some d)
    (hm : (name, src) ∈ d) :
    name = move_dest src ∧ src ∈ (runCollection ptr ptb fs).copies := by
  cases p with
  | file => exact absurd hd (by simp [runBuildScript, clearDest])
  | absent =>
      simp only [runBuildScript, clearDest, Option.some.injEq] at hd
      subst hd
      simp only [destOfCopies, List.mem_map, Prod.mk.injEq] at hm
      obtain ⟨s, hs, h1, h2⟩ := hm
      subst h2
      exact ⟨h1.symm, hs⟩
  | dir c =>
      simp only [runBuildScript, clearDest, Option.some.injEq] at hd
      subst hd
      simp only [destOfCopies, List.mem_map, Prod.mk.injEq] at hm
      obtain ⟨s, hs, h1, h2⟩ := hm
      subst h2
      exact ⟨h1.symm, hs⟩

/-- Claim C1: every file copied into the destination directory by the
artifact collector has one of the allow-list extensions
(`lib`, `a`, `so`, `dylib`); no file with any other extension is ever
copied, for every source-directory contents. -/
theorem collector_only_valid_extensions (p : DestPrior) (ptr ptb : Str) (fs : FS)
    (d : List (Str × Str)) (name src : Str)
    (hd : (runBuildScript p ptr ptb fs).dest = some d) (hm : (name, src) ∈ d) :
    ∃ ext, ext ∈ VALID_EXTENSIONS ∧ get_ext name = ext ∧
      endswith name ('.' :: ext) = true := by
  obtain ⟨hname, hsrc⟩ := dest_mem p ptr ptb fs d name src hd hm
  obtain ⟨ext, hext, t, ht⟩ := copies_shape ptr ptb fs src hsrc
  obtain ⟨hdot, hbs⟩ := valid_ext_chars ext hext
  subst ht
  subst hname
  obtain ⟨h1, h2⟩ := get_ext_move_dest t ext hdot hbs
  exact ⟨ext, hext, h1, h2⟩

/-- Witness for C1: a concrete run whose destination holds `x.so`,
whose extension `so` is in the allow-list. -/
theorem collector_only_valid_extensions_witness :
    ∃ ext, ext ∈ VALID_EXTENSIONS ∧ get_ext "x.so".toList = ext ∧
      endswith "x.so".toList ('.' :: ext) = true :=
  collector_only_valid_extensions DestPrior.absent "target/release".toList
    "target/release/build".toList ⟨some ["x.so".toList], some []⟩
    [("x.so".toList, "target/release/x.so".toList)]
    "x.so".toList "target/release/x.so".toList (by decide) (by decide)

/-- Claim C2: if the destination directory already exists before a
collection run (with any leftover contents), the run removes it
entirely and recreates it, so after the run it holds exactly the
artifacts copied during that run — the same outcome as starting with no
destination directory at all. -/
theorem clean_slate (junk : List (Str × Str)) (ptr ptb : Str) (fs : FS) :
    runBuildScript (DestPrior.dir junk) ptr ptb fs =
      runBuildScript DestPrior.absent ptr ptb fs ∧
    (runBuildScript (DestPrior.dir junk) ptr ptb fs).dest =
      some (destOfCopies (runCollection ptr ptb fs).copies) :=
  ⟨rfl, rfl⟩

/-- Claim C8: running the collection step a second time, with the
source build directories unchanged, over the destination the first run
produced, yields the same destination contents (idempotence). -/
theorem collection_idempotent (p : DestPrior) (ptr ptb : Str) (fs : FS)
    (d : List (Str × Str)) (h : (runBuildScript p ptr ptb fs).dest = some d) :
    (runBuildScript (DestPrior.dir d) ptr ptb fs).dest = some d := by
  cases p with
  | file => exact absurd h (by simp [runBuildScript, clearDest])
  | absent => exact h
  | dir c => exact h

/-- Witness for C8: a concrete first run producing `x.so`, after which
a second run over its output reproduces it. -/
theorem collection_idempotent_witness :
    (runBuildScript (DestPrior.dir [("x.so".toList, "target/release/x.so".toList)])
        "target/release".toList "target/release/build".toList
        ⟨some ["x.so".toList], some []⟩).dest =
      some [("x.so".toList, "target/release/x.so".toList)] :=
  collection_idempotent DestPrior.absent "target/release".toList
    "target/release/build".toList ⟨some ["x.so".toList], some []⟩
    [("x.so".toList, "target/release/x.so".toList)] (by decide)

/-- Claim C4: a build-output subdirectory whose name starts with
neither `mlua` nor `pixelscript` contributes nothing: removing it from
the build directory leaves the destination unchanged. -/
theorem unmatched_crate_dir_not_copied (p : DestPrior) (ptr ptb : Str) (fs : FS)
    (entries : List (Str × List Str)) (e : Str × List Str)
    (hb : fs.buildDirs = some entries) (he : e ∈ entries)
    (h1 : startswith e.1 "mlua".toList = false)
    (h2 : startswith e.1 "pixelscript".toList = false) :
    collectBuildEntry ptb e = [] ∧
    (runBuildScript p ptr ptb fs).dest =
      (runBuildScript p ptr ptb ⟨fs.release, some (entries.erase e)⟩).dest := by
  have hentry : collectBuildEntry ptb e = [] := by
    have h1' : startswith e.1 ['m', 'l', 'u', 'a'] = false := h1
    have h2' : startswith e.1
        ['p', 'i', 'x', 'e', 'l', 's', 'c', 'r', 'i', 'p', 't'] = false := h2
    simp [collectBuildEntry, LIB_CRATES, CRATE_NAME, h1', h2']
  refine ⟨hentry, ?_⟩
  obtain ⟨s, t, hnot, hsplit, herase⟩ := List.exists_erase_eq he
  have hflat : entries.flatMap (collectBuildEntry ptb) =
      (entries.erase e).flatMap (collectBuildEntry ptb) := by
    rw [herase, hsplit, List.flatMap_append, List.flatMap_append,
      List.flatMap_cons, hentry, List.nil_append]
  have hcoll : runCollection ptr ptb fs =
      runCollection ptr ptb ⟨fs.release, some (entries.erase e)⟩ := by
    obtain ⟨rel, bd⟩ := fs
    simp only at hb
    subst hb
    simp only [runCollection, hflat]
  cases p with
  | file => rfl
  | absent => simp only [runBuildScript, clearDest, hcoll]
  | dir c => simp only [runBuildScript, clearDest, hcoll]

/-- Witness for C4: a build directory holding only a `serde-` entry
with a library inside; the run copies nothing and removing the entry
changes nothing. -/
theorem unmatched_crate_dir_not_copied_witness :
    collectBuildEntry "target/release/build".toList
      ("serde-ab".toList, ["out/libserde.a".toList]) = [] ∧
    (runBuildScript DestPrior.absent "target/release".toList "target/release/build".toList
        ⟨some [], some [("serde-ab".toList, ["out/libserde.a".toList])]⟩).dest =
      (runBuildScript DestPrior.absent "target/release".toList "target/release/build".toList
        ⟨some [], some ([("serde-ab".toList, ["out/libserde.a".toList])].erase
          ("serde-ab".toList, ["out/libserde.a".toList]))⟩).dest :=
  unmatched_crate_dir_not_copied DestPrior.absent "target/release".toList
    "target/release/build".toList
    ⟨some [], some [("serde-ab".toList, ["out/libserde.a".toList])]⟩
    [("serde-ab".toList, ["out/libserde.a".toList])]
    ("serde-ab".toList, ["out/libserde.a".toList])
    (by decide) (by decide) (by decide) (by decide)

/-- Counterexample to claim C5: the source file `libfoo.1.so` (a
basename with two dots) is stored as `libfoo.so`, not under its
basename, because `move` computes the stem from
`old.split('.')[0]`. -/
theorem basename_not_preserved_counterexample :
    (runBuildScript DestPrior.absent "target/release".toList "target/release/build".toList
        ⟨some ["libfoo.1.so".toList], some []⟩).dest =
      some [("libfoo.so".toList, "target/release/libfoo.1.so".toList)] ∧
    basename "target/release/libfoo.1.so".toList = "libfoo.1.so".toList ∧
    ("libfoo.so".toList : Str) ≠ "libfoo.1.so".toList := by
  refine ⟨by decide, by decide, by decide⟩

/-- Claim C5 as amended: every copied artifact is stored under
`{stem}.{ext}`, where the stem is the last slash-segment of the path's
text before its first dot and the extension is the text after its last
dot; when the source basename contains exactly one dot and no directory
component contains a dot, the destination name equals the source
basename. -/
theorem dest_name_preserves_single_dot_basename (p : DestPrior) (ptr ptb : Str)
    (fs : FS) (d : List (Str × Str)) (name src dir stem ext : Str)
    (hd : (runBuildScript p ptr ptb fs).dest = some d) (hm : (name, src) ∈ d)
    (hsrc : src = dir ++ '/' :: (stem ++ '.' :: ext))
    (hbs : '\\' ∉ src) (hd1 : '.' ∉ dir) (hd2 : '.' ∉ stem) (hd3 : '.' ∉ ext)
    (hs1 : '/' ∉ stem) (hs2 : '/' ∉ ext) :
    name = basename src ∧ basename src = stem ++ '.' :: ext := by
  obtain ⟨hname, _⟩ := dest_mem p ptr ptb fs d name src hd hm
  have hassoc : src = (dir ++ '/' :: stem) ++ '.' :: ext := by
    rw [hsrc, List.append_assoc, List.cons_append]
  have hnodot : '.' ∉ dir ++ '/' :: stem := by
    intro hmem
    rcases List.mem_append.mp hmem with h | h
    · exact hd1 h
    · rcases List.mem_cons.mp h with h | h
      · exact absurd h.symm (by decide)
      · exact hd2 h
  have hnoslash : '/' ∉ stem ++ '.' :: ext := by
    intro hmem
    rcases List.mem_append.mp hmem with h | h
    · exact hs1 h
    · rcases List.mem_cons.mp h with h | h
      · exact absurd h.symm (by decide)
      · exact hs2 h
  have hbase : basename src = stem ++ '.' :: ext := by
    unfold basename
    rw [hsrc, splitCh_append '/' dir (stem ++ '.' :: ext),
      splitCh_not_mem '/' (stem ++ '.' :: ext) hnoslash,
      getLastD_append _ _ (by simp)]
    rfl
  refine ⟨?_, hbase⟩
  rw [hname]
  have hmd : move_dest src =
      (splitCh '/' ((splitCh '.' (convert_path src)).headD [])).getLastD [] ++
        '.' :: get_ext (convert_path src) := rfl
  have hext : get_ext (convert_path src) = ext := by
    rw [convert_path_fixed src hbs, hassoc]
    exact get_ext_append (dir ++ '/' :: stem) ext hd3
  have hsplit1 : splitCh '.' (convert_path src) = [dir ++ '/' :: stem, ext] := by
    rw [convert_path_fixed src hbs, hassoc, splitCh_append '.' (dir ++ '/' :: stem) ext,
      splitCh_not_mem '.' (dir ++ '/' :: stem) hnodot, splitCh_not_mem '.' ext hd3]
    rfl
  have hfn : (splitCh '/' ((splitCh '.' (convert_path src)).headD [])).getLastD [] = stem := by
    rw [hsplit1]
    show (splitCh '/' (dir ++ '/' :: stem)).getLastD [] = stem
    rw [splitCh_append '/' dir stem, splitCh_not_mem '/' stem hs1,
      getLastD_append _ _ (by simp)]
    rfl
  rw [hmd, hfn, hext, hbase]

/-- Witness for the amended C5: the copied file `target/release/x.so`
keeps its basename `x.so` in the destination. -/
theorem dest_name_preserves_single_dot_basename_witness :
    "x.so".toList = basename "target/release/x.so".toList ∧
    basename "target/release/x.so".toList = "x".toList ++ '.' :: "so".toList :=
  dest_name_preserves_single_dot_basename DestPrior.absent "target/release".toList
    "target/release/build".toList ⟨some ["x.so".toList], some []⟩
    [("x.so".toList, "target/release/x.so".toList)]
    "x.so".toList "target/release/x.so".toList "target/release".toList
    "x".toList "so".toList
    (by decide) (by decide) (by decide) (by decide) (by decide) (by decide)
    (by decide) (by decide) (by decide)

/-- Claim C10: a missing build subdirectory makes the collector raise
`FileNotFoundError` only after the destination has been recreated and
the release-level artifacts copied, leaving the destination in that
partial state; a missing release directory alone raises no error and
contributes no copies. -/
theorem missing_dirs_behaviour (p : DestPrior) (ptr ptb : Str) (fs : FS)
    (hp : p ≠ DestPrior.file) :
    (fs.buildDirs = none →
      (runBuildScript p ptr ptb fs).err = some "FileNotFoundError" ∧
      (runBuildScript p ptr ptb fs).dest =
        some (destOfCopies (releaseCopies ptr fs.release))) ∧
    (∀ entries, fs.release = none → fs.buildDirs = some entries →
      (runBuildScript p ptr ptb fs).err = none ∧
      releaseCopies ptr fs.release = [] ∧
      (runBuildScript p ptr ptb fs).dest =
        some (destOfCopies (entries.flatMap (collectBuildEntry ptb)))) := by
  obtain ⟨rel, bd⟩ := fs
  constructor
  · intro hb
    simp only at hb
    subst hb
    cases p with
    | file => exact absurd rfl hp
    | absent => exact ⟨rfl, rfl⟩
    | dir c => exact ⟨rfl, rfl⟩
  · intro entries hr hb
    simp only at hr hb
    subst hr
    subst hb
    cases p with
    | file => exact absurd rfl hp
    | absent =>
        refine ⟨rfl, rfl, ?_⟩
        simp [runBuildScript, clearDest, runCollection, releaseCopies]
    | dir c =>
        refine ⟨rfl, rfl, ?_⟩
        simp [runBuildScript, clearDest, runCollection, releaseCopies]

/-- Witness for C10: with the release directory listing `x.so` and the
build directory missing, the run errors with `FileNotFoundError` but
the destination already holds `x.so`. -/
theorem missing_dirs_behaviour_witness :
    ((FS.mk (some ["x.so".toList]) none).buildDirs = none →
      (runBuildScript DestPrior.absent "target/release".toList "target/release/build".toList
          (FS.mk (some ["x.so".toList]) none)).err = some "FileNotFoundError" ∧
      (runBuildScript DestPrior.absent "target/release".toList "target/release/build".toList
          (FS.mk (some ["x.so".toList]) none)).dest =
        some (destOfCopies (releaseCopies "target/release".toList
          (FS.mk (some ["x.so".toList]) none).release))) ∧
    (∀ entries, (FS.mk (some ["x.so".toList]) none).release = none →
      (FS.mk (some ["x.so".toList]) none).buildDirs = some entries →
      (runBuildScript DestPrior.absent "target/release".toList "target/release/build".toList
          (FS.mk (some ["x.so".toList]) none)).err = none ∧
      releaseCopies "target/release".toList (FS.mk (some ["x.so".toList]) none).release = [] ∧
      (runBuildScript DestPrior.absent "target/release".toList "target/release/build".toList
          (FS.mk (some ["x.so".toList]) none)).dest =
        some (destOfCopies (entries.flatMap
          (collectBuildEntry "target/release/build".toList)))) :=
  missing_dirs_behaviour DestPrior.absent "target/release".toList
    "target/release/build".toList (FS.mk (some ["x.so".toList]) none) (by decide)

theorem parseStep_target_mono (st : ParsedArgs) (arg : Str)
    (h : startswith st.target "--target=".toList = true) :
    startswith (parseStep st arg).target "--target=".toList = true := by
  unfold parseStep
  by_cases h1 : strContains arg "target".toList = true
  · rw [if_pos h1]
    exact startswith_append "--target=".toList _
  · rw [if_neg h1]
    by_cases h2 : strContains arg "features".toList = true
    · rw [if_pos h2]; exact h
    · rw [if_neg h2]; exact h

theorem parseStep_features_mono (st : ParsedArgs) (arg : Str)
    (h : "--features".toList ∈ st.features) :
    "--features".toList ∈ (parseStep st arg).features := by
  unfold parseStep
  by_cases h1 : strContains arg "target".toList = true
  · rw [if_pos h1]; exact h
  · rw [if_neg h1]
    by_cases h2 : strContains arg "features".toList = true
    · rw [if_pos h2]
      exact List.mem_append_left _ h
    · rw [if_neg h2]; exact h

theorem foldl_target_mono (l : List Str) : ∀ (st : ParsedArgs),
    startswith st.target "--target=".toList = true →
    startswith (l.foldl parseStep st).target "--target=".toList = true := by
  induction l with
  | nil => intro st h; exact h
  | cons a l ih =>
      intro st h
      exact ih (parseStep st a) (parseStep_target_mono st a h)

theorem foldl_features_mono (l : List Str) : ∀ (st : ParsedArgs),
    "--features".toList ∈ st.features →
    "--features".toList ∈ (l.foldl parseStep st).features := by
  induction l with
  | nil => intro st h; exact h
  | cons a l ih =>
      intro st h
      exact ih (parseStep st a) (parseStep_features_mono st a h)

theorem parseStep_sets_target (st : ParsedArgs) (arg : Str)
    (h : strContains arg "target".toList = true) :
    startswith (parseStep st arg).target "--target=".toList = true := by
  unfold parseStep
  rw [if_pos h]
  exact startswith_append "--target=".toList _

theorem parseStep_sets_features (st : ParsedArgs) (arg : Str)
    (h1 : strContains arg "features".toList = true)
    (h2 : strContains arg "target".toList = false) :
    "--features".toList ∈ (parseStep st arg).features := by
  unfold parseStep
  rw [if_neg (by simp only [h2]; exact Bool.false_ne_true), if_pos h1]
  exact List.mem_append_right _ (List.mem_cons_self _ _)

theorem parse_aux (l : List Str) : ∀ (st : ParsedArgs) (arg : Str), arg ∈ l →
    (strContains arg "target".toList = true →
      startswith (l.foldl parseStep st).target "--target=".toList = true) ∧
    (strContains arg "features".toList = true →
      strContains arg "target".toList = false →
      "--features".toList ∈ (l.foldl parseStep st).features) := by
  induction l with
  | nil => intro st arg h; exact absurd h (List.not_mem_nil arg)
  | cons a l ih =>
      intro st arg h
      rcases List.mem_cons.mp h with h | h
      · subst h
        constructor
        · intro ht
          exact foldl_target_mono l (parseStep st arg) (parseStep_sets_target st arg ht)
        · intro hf ht
          exact foldl_features_mono l (parseStep st arg)
            (parseStep_sets_features st arg hf ht)
      · exact ih (parseStep st a) arg h

/-- Counterexample to claim C9: the argument `targetfeatures=x`
contains the substring `features` but, because the `target` test is an
`if` and the `features` test its `elif`, it is treated as the target
flag and never as the feature-flag list: the features stay at their
default. -/
theorem substring_parse_counterexample :
    strContains "targetfeatures=x".toList "features".toList = true ∧
    (parseArgs ["targetfeatures=x".toList]).target = "--target=x".toList ∧
    (parseArgs ["targetfeatures=x".toList]).features =
      ["--no-default-features".toList] ∧
    "--features".toList ∉ (parseArgs ["targetfeatures=x".toList]).features := by
  refine ⟨by decide, by decide, by decide, by decide⟩

/-- Claim C9 as amended: argument parsing is substring-based with the
`target` test taking priority: every argument containing the substring
`target` causes the target flag to be set (to `--target=` followed by
the text after the argument's last `=`), and every argument containing
`features` but not `target` causes a `--features` entry to be appended
to the feature-flag list. -/
theorem parse_substring_target_priority (argv : List Str) (arg : Str)
    (h : arg ∈ argv) :
    (strContains arg "target".toList = true →
      startswith (parseArgs argv).target "--target=".toList = true) ∧
    (strContains arg "features".toList = true →
      strContains arg "target".toList = false →
      "--features".toList ∈ (parseArgs argv).features) :=
  parse_aux argv ⟨[], [], ["--no-default-features".toList]⟩ arg h

/-- Witness for the amended C9: concrete invocations with a `target`
argument and with a `features` argument. -/
theorem parse_substring_target_priority_witness :
    (strContains "target=abc".toList "target".toList = true →
      startswith (parseArgs ["target=abc".toList]).target "--target=".toList = true) ∧
    (strContains "target=abc".toList "features".toList = true →
      strContains "target=abc".toList "target".toList = false →
      "--features".toList ∈ (parseArgs ["target=abc".toList]).features) :=
  parse_substring_target_priority ["target=abc".toList] "target=abc".toList (by decide)

end PixelBuild

namespace PixelTest

open PixelBuild (startswith)

theorem runFrom_cons (sk : List Str) (t : TestFile) (rest : List TestFile) :
    runFrom sk (t :: rest) =
      if t.name ∈ sk then runFrom sk rest
      else
        match t.lines.get? 8 with
        | none => ⟨[t.name], [], some "IndexError"⟩
        | some line =>
          if startswith line "//".toList then
            ⟨t.name :: (runFrom sk rest).opened,
              ((splitSeq "// ".toList line).getLastD []) :: (runFrom sk rest).executed,
              (runFrom sk rest).err⟩
          else
            ⟨t.name :: (runFrom sk rest).opened, (runFrom sk rest).executed,
              (runFrom sk rest).err⟩ := rfl

/-- Claim C3: a test file, not in the skip set, whose 9th line is
`// echo hello` makes the runner derive and execute exactly the shell
command `echo hello` and no other command. -/
theorem runner_executes_ninth_line_command (argv : List Str) (t : TestFile)
    (h1 : t.name ∉ skipped_tests argv)
    (h2 : t.lines.get? 8 = some "// echo hello".toList) :
    runTests [t] argv = ⟨[t.name], ["echo hello".toList], none⟩ := by
  unfold runTests
  rw [runFrom_cons, if_neg h1, h2]
  rfl

/-- Witness for C3: a concrete nine-line test file whose 9th line is
`// echo hello`. -/
theorem runner_executes_ninth_line_command_witness :
    runTests [⟨"a.rs".toList,
        ["1".toList, "2".toList, "3".toList, "4".toList, "5".toList,
          "6".toList, "7".toList, "8".toList, "// echo hello".toList]⟩] [] =
      ⟨["a.rs".toList], ["echo hello".toList], none⟩ :=
  runner_executes_ninth_line_command []
    ⟨"a.rs".toList,
      ["1".toList, "2".toList, "3".toList, "4".toList, "5".toList,
        "6".toList, "7".toList, "8".toList, "// echo hello".toList]⟩
    (by decide) (by decide)

/-- Claim C6: when the runner reaches a test file with fewer than 9
lines (and not in the skip set), it fails with an index out-of-range
error rather than skipping the file: the run aborts, executing
nothing further. -/
theorem short_file_raises_index_error (argv : List Str) (t : TestFile)
    (rest : List TestFile) (h1 : t.name ∉ skipped_tests argv)
    (h2 : t.lines.length < 9) :
    runTests (t :: rest) argv = ⟨[t.name], [], some "IndexError"⟩ := by
  have hnone : t.lines.get? 8 = none := List.get?_eq_none.mpr (by omega)
  unfold runTests
  rw [runFrom_cons, if_neg h1, hnone]

/-- Witness for C6: a concrete one-line test file. -/
theorem short_file_raises_index_error_witness :
    runTests [⟨"short.rs".toList, ["x".toList]⟩] [] =
      ⟨["short.rs".toList], [], some "IndexError"⟩ :=
  short_file_raises_index_error [] ⟨"short.rs".toList, ["x".toList]⟩ []
    (by decide) (by decide)

theorem runFrom_skip_not_opened (sk : List Str) (x : Str) (hx : x ∈ sk) :
    ∀ tests, x ∉ (runFrom sk tests).opened := by
  intro tests
  induction tests with
  | nil => simp [runFrom]
  | cons t rest ih =>
      rw [runFrom_cons]
      by_cases hm : t.name ∈ sk
      · rw [if_pos hm]; exact ih
      · rw [if_neg hm]
        have hne : x ≠ t.name := fun he => hm (he ▸ hx)
        cases hg : t.lines.get? 8 with
        | none =>
            show x ∉ [t.name]
            simp [hne]
        | some line =>
            show x ∉ (if startswith line "//".toList then
                (⟨t.name :: (runFrom sk rest).opened,
                  ((splitSeq "// ".toList line).getLastD []) ::
                    (runFrom sk rest).executed,
                  (runFrom sk rest).err⟩ : RunOutcome)
              else
                ⟨t.name :: (runFrom sk rest).opened, (runFrom sk rest).executed,
                  (runFrom sk rest).err⟩).opened
            by_cases hsw : startswith line "//".toList = true
            · rw [if_pos hsw]
              show x ∉ t.name :: (runFrom sk rest).opened
              intro hmem
              rcases List.mem_cons.mp hmem with h | h
              · exact hne h
              · exact ih h
            · rw [if_neg hsw]
              show x ∉ t.name :: (runFrom sk rest).opened
              intro hmem
              rcases List.mem_cons.mp hmem with h | h
              · exact hne h
              · exact ih h

/-- Claim C7: whatever the explicit skip arguments, a test file named
`test_repl.rs` is never opened (hence never read or executed). -/
theorem test_repl_never_opened (tests : List TestFile) (argv : List Str) :
    "test_repl.rs".toList ∉ (runTests tests argv).opened :=
  runFrom_skip_not_opened (skipped_tests argv) "test_repl.rs".toList
    (by unfold skipped_tests
        exact List.mem_append_right argv (List.mem_cons_self _ _)) tests

end PixelTest
